import Mathlib

-- Shallow embedding of the DataPlatform repository's two static-analysis
-- tools: src/tools/code_analysis.py (pattern-based issue scanner) and
-- src/tools/find_dependencies.py (.csproj dependency lister).

set_option maxRecDepth 4000

-- ## Regular-expression engine
-- Embedding of the Python `re` patterns used in code_analysis.py.  Every
-- repetition in the catalog is over a single-character class, so `star`
-- takes a character class; negative lookahead `(?!...)` is the `neg`
-- constructor; `re.search` is existence of a match at some start position.

/-- A single-character class of the pattern catalog. -/
inductive CClass where
  | any                                  -- `.` : any char except newline
  | ws                                   -- `\s`
  | lit (c : Char)                       -- a literal character
  | oneOf (cs : List Char)               -- `[abc]` or case-insensitive literal
  | noneOf (cs : List Char)              -- `[^abc]`
  | ranges (rs : List (Char × Char))     -- `[A-Z]`, `[A-Za-z0-9]`
deriving Repr

/-- Whitespace characters matched by `\s` (ASCII). -/
def wsChars : List Char := [' ', '\t', '\n', '\x0d', '\x0b', '\x0c']

/-- Does a character belong to a character class? -/
def matchesClass : CClass → Char → Bool
  | .any, c => c != '\n'
  | .ws, c => wsChars.contains c
  | .lit d, c => c == d
  | .oneOf cs, c => cs.contains c
  | .noneOf cs, c => !(cs.contains c)
  | .ranges rs, c => rs.any (fun r => r.1 ≤ c && c ≤ r.2)

/-- Regular expressions as used by the pattern catalog. -/
inductive Regex where
  | eps                                  -- empty pattern
  | cls (c : CClass)                     -- one character from a class
  | cat (a b : Regex)                    -- concatenation
  | alt (a b : Regex)                    -- alternation `a|b`
  | star (c : CClass)                    -- `C*` over a character class
  | neg (r : Regex)                      -- negative lookahead `(?!r)`
deriving Repr

/-- `C*` with continuation: try every split of the input into class
characters followed by the continuation. -/
def starCont (c : CClass) : List Char → (List Char → Bool) → Bool
  | [], k => k []
  | ch :: rest, k => k (ch :: rest) || (matchesClass c ch && starCont c rest k)

/-- Backtracking matcher in continuation style: does some prefix of `s`
match `r` such that the continuation `k` accepts the remainder? -/
def matchCont : Regex → List Char → (List Char → Bool) → Bool
  | .eps, s, k => k s
  | .cls _, [], _ => false
  | .cls c, ch :: s, k => matchesClass c ch && k s
  | .cat a b, s, k => matchCont a s (fun s2 => matchCont b s2 k)
  | .alt a b, s, k => matchCont a s k || matchCont b s k
  | .star c, s, k => starCont c s k
  | .neg r, s, k => !(matchCont r s (fun _ => true)) && k s

/-- Does a match of `r` start at the beginning of `s`? -/
def matchHere (r : Regex) (s : List Char) : Bool :=
  matchCont r s (fun _ => true)

/-- Does a match of `r` start at some position of `s`? -/
def searchList (r : Regex) : List Char → Bool
  | [] => matchHere r []
  | ch :: rest => matchHere r (ch :: rest) || searchList r rest

/-- Embedding of `re.search(pattern, line)` truthiness. -/
def research (r : Regex) (s : String) : Bool :=
  searchList r s.toList

/-- Concatenation of a list of regexes. -/
def rcat : List Regex → Regex
  | [] => .eps
  | [r] => r
  | r :: rest => .cat r (rcat rest)

/-- Literal string pattern. -/
def rstr (s : String) : Regex :=
  rcat (s.toList.map (fun c => .cls (.lit c)))

/-- Case-insensitive literal character (for `(?i)` patterns). -/
def iChr (c : Char) : Regex :=
  .cls (.oneOf [c.toLower, c.toUpper])

/-- Case-insensitive literal string (for `(?i)` patterns). -/
def istr (s : String) : Regex :=
  rcat (s.toList.map iChr)

/-- `\s+` -/
def wsPlus : Regex := .cat (.cls .ws) (.star .ws)

/-- `\s*` -/
def wsStar : Regex := .star .ws

/-- `C+` for a character class. -/
def clsPlus (c : CClass) : Regex := .cat (.cls c) (.star c)

/-- `C{8,}` : at least eight characters of the class. -/
def clsAtLeast8 (c : CClass) : Regex :=
  rcat [.cls c, .cls c, .cls c, .cls c, .cls c, .cls c, .cls c, .cls c, .star c]

/-- `(?:r)?` -/
def ropt (r : Regex) : Regex := .alt r .eps

-- ## Issue scanner (src/tools/code_analysis.py)

/-- The `Issue` dataclass. -/
structure Issue where
  filepath : String
  line_number : Nat
  issue_type : String
  description : String
  severity : String
deriving DecidableEq, Repr

/-- One entry of the `patterns` table of `scan_file`. -/
structure Rule where
  pattern : Regex
  issue_type : String
  description : String
  severity : String

/-- The `patterns` table of `scan_file`, compiled, in source order. -/
def patternsTable : List Rule := [
  -- r'throw\s+new\s+Exception\('
  ⟨rcat [rstr "throw", wsPlus, rstr "new", wsPlus, rstr "Exception("],
    "exception_usage", "Using generic Exception instead of specific exception type", "medium"⟩,
  -- r'catch\s*\(\s*Exception'
  ⟨rcat [rstr "catch", wsStar, rstr "(", wsStar, rstr "Exception"],
    "exception_handling", "Catching generic Exception", "medium"⟩,
  -- r'\.Result;'
  ⟨rstr ".Result;", "async_antipattern", "Using .Result instead of await", "high"⟩,
  -- r'\.Wait\(\);'
  ⟨rstr ".Wait();", "async_antipattern", "Using .Wait() instead of await", "high"⟩,
  -- r'Console\.Write'
  ⟨rstr "Console.Write", "logging", "Using Console.Write instead of proper logging", "medium"⟩,
  -- r'string\.Format'
  ⟨rstr "string.Format", "string_formatting", "Using string.Format instead of string interpolation", "low"⟩,
  -- r'new\s+List<.*>\(\)'
  ⟨rcat [rstr "new", wsPlus, rstr "List<", .star .any, rstr ">()"],
    "collections", "Consider using collection initializers", "low"⟩,
  -- r'\/\/\s*TODO'
  ⟨rcat [rstr "//", wsStar, rstr "TODO"], "todo", "TODO comment found", "low"⟩,
  -- r'\/\/\s*HACK'
  ⟨rcat [rstr "//", wsStar, rstr "HACK"], "hack", "HACK comment found", "medium"⟩,
  -- r'\/\/\s*FIXME'
  ⟨rcat [rstr "//", wsStar, rstr "FIXME"], "fixme", "FIXME comment found", "high"⟩,
  -- r'(?:public|protected|private)\s+(?:readonly\s+)?(?!readonly)(?!const)[A-Z]'
  ⟨rcat [.alt (rstr "public") (.alt (rstr "protected") (rstr "private")), wsPlus,
         ropt (rcat [rstr "readonly", wsPlus]), .neg (rstr "readonly"), .neg (rstr "const"),
         .cls (.ranges [('A', 'Z')])],
    "naming", "Public field not following naming conventions", "medium"⟩,
  -- r'=\s*null!;'
  ⟨rcat [rstr "=", wsStar, rstr "null!;"], "null_safety", "Using null-forgiving operator (!)", "medium"⟩,
  -- r'=\s*default!;'
  ⟨rcat [rstr "=", wsStar, rstr "default!;"], "null_safety", "Using null-forgiving operator (!)", "medium"⟩,
  -- r'\?\?\s*throw'
  ⟨rcat [rstr "??", wsStar, rstr "throw"], "null_coalescing", "Using ?? throw pattern", "low"⟩,
  -- r'<summary>\s*</summary>'
  ⟨rcat [rstr "<summary>", wsStar, rstr "</summary>"], "documentation", "Empty summary documentation", "low"⟩,
  -- r'<param name="[^"]*">\s*</param>'
  ⟨rcat [rstr "<param name=\"", .star (.noneOf ['"']), rstr "\">", wsStar, rstr "</param>"],
    "documentation", "Empty parameter documentation", "low"⟩,
  -- r'(?i)(?:password|pwd)=[^;]*;'
  ⟨rcat [.alt (istr "password") (istr "pwd"), rstr "=", .star (.noneOf [';']), rstr ";"],
    "security", "Possible hardcoded credentials", "high"⟩,
  -- r'(?i)(?:User ID|uid)=[^;]*;.*(?:password|pwd)=[^;]*;'
  ⟨rcat [.alt (istr "User ID") (istr "uid"), rstr "=", .star (.noneOf [';']), rstr ";",
         .star .any, .alt (istr "password") (istr "pwd"), rstr "=", .star (.noneOf [';']), rstr ";"],
    "security", "Possible hardcoded credentials", "high"⟩,
  -- r'(?i)mongodb(?:://|\+srv://)[^@]*:[^@]*@'
  ⟨rcat [istr "mongodb", .alt (rstr "://") (rstr "+srv://"),
         .star (.noneOf ['@']), rstr ":", .star (.noneOf ['@']), rstr "@"],
    "security", "Possible hardcoded MongoDB credentials", "high"⟩,
  -- r'new\s+[A-Z][A-Za-z0-9]*Service\('
  ⟨rcat [rstr "new", wsPlus, .cls (.ranges [('A', 'Z')]),
         .star (.ranges [('A', 'Z'), ('a', 'z'), ('0', '9')]), rstr "Service("],
    "di", "Creating service directly instead of using DI", "medium"⟩,
  -- r'new\s+[A-Z][A-Za-z0-9]*Repository\('
  ⟨rcat [rstr "new", wsPlus, .cls (.ranges [('A', 'Z')]),
         .star (.ranges [('A', 'Z'), ('a', 'z'), ('0', '9')]), rstr "Repository("],
    "di", "Creating repository directly instead of using DI", "medium"⟩,
  -- r'async\s+.*\{\s*[^}]*return\s+[^\.]*[^awaitTskAyc]+;'
  ⟨rcat [rstr "async", wsPlus, .star .any, rstr "\x7b", wsStar, .star (.noneOf ['}']),
         rstr "return", wsPlus, .star (.noneOf ['.']),
         clsPlus (.noneOf ['a', 'w', 'i', 't', 'T', 's', 'k', 'A', 'y', 'c']), rstr ";"],
    "async_without_await", "Async method without await", "medium"⟩,
  -- r'"(?:ConnectionString|ApiKey|Secret|Password)":\s*"[^"]{8,}"'
  ⟨rcat [rstr "\"",
         .alt (rstr "ConnectionString") (.alt (rstr "ApiKey") (.alt (rstr "Secret") (rstr "Password"))),
         rstr "\":", wsStar, rstr "\"", clsAtLeast8 (.noneOf ['"']), rstr "\""],
    "security", "Possible hardcoded secret in JSON configuration", "high"⟩]

-- ## Path helpers (embedding of the os.path functions used)

/-- Characters after the last `/` of a path (`os.path.basename`). -/
def basenameL (p : List Char) : List Char :=
  (p.reverse.takeWhile (fun c => c != '/')).reverse

/-- Extension of a basename, following the CPython `posixpath.splitext`
algorithm: the suffix from the last dot, provided some character of the
basename strictly before that dot is not itself a dot. -/
def extBase (b : List Char) : List Char :=
  let rb := b.reverse
  match rb.dropWhile (fun c => c != '.') with
  | [] => []
  | _ :: before =>
      if before.any (fun c => c != '.') then
        '.' :: (rb.takeWhile (fun c => c != '.')).reverse
      else []

/-- Embedding of `os.path.splitext(filepath)[1].lower()`. -/
def fileExtension (p : String) : String :=
  String.mk ((extBase (basenameL p.toList)).map Char.toLower)

/-- Is `pat` a contiguous substring of `s` (Python `part in filepath`)? -/
def substrOf (pat : List Char) : List Char → Bool
  | [] => pat.isPrefixOf []
  | c :: rest => pat.isPrefixOf (c :: rest) || substrOf pat rest

/-- The excluded path fragments of `scan_file`. -/
def excludedParts : List String := ["obj/", "bin/", ".vs/", "node_modules/"]

/-- `any(part in filepath for part in ['obj/', 'bin/', '.vs/', 'node_modules/'])`. -/
def containsExcludedPart (filepath : String) : Bool :=
  excludedParts.any (fun part => substrOf part.toList filepath.toList)

/-- The extension allow-list of `scan_file`. -/
def allowedExtensions : List String := [".cs", ".py", ".js", ".json", ".xml", ".csproj"]

-- ## File system abstraction and scan_file

/-- Abstract file system: existence, regular-file test and the sequence of
text lines `open(...)` iteration would yield. -/
structure FileSystem where
  pathExists : String → Bool
  isFile : String → Bool
  fileLines : String → List String

/-- The inner pattern loop of `scan_file` for a single line. -/
def scanLine (filepath : String) (line_number : Nat) (line : String) : List Issue :=
  (patternsTable.filter (fun r => research r.pattern line)).map
    (fun r => ⟨filepath, line_number, r.issue_type, r.description, r.severity⟩)

/-- The `enumerate(f)` loop of `scan_file`, with 1-based line numbers. -/
def scanLinesFrom (filepath : String) (n : Nat) : List String → List Issue
  | [] => []
  | line :: rest => scanLine filepath n line ++ scanLinesFrom filepath (n + 1) rest

/-- Embedding of `scan_file`. -/
def scan_file (fs : FileSystem) (filepath : String) : List Issue :=
  if !(fs.pathExists filepath && fs.isFile filepath) then []
  else if containsExcludedPart filepath then []
  else if !(allowedExtensions.contains (fileExtension filepath)) then []
  else scanLinesFrom filepath 1 (fs.fileLines filepath)

-- ## Directory walk (os.walk with directory pruning) and scan_directory

mutual
/-- Abstract directory tree: named subdirectories and file names. -/
inductive DirTree where
  | node (dirs : DirList) (files : List String)
/-- List of named subdirectories of a `DirTree`. -/
inductive DirList where
  | nil
  | cons (name : String) (tree : DirTree) (rest : DirList)
end

/-- The directory names pruned from the walk in `scan_directory`. -/
def excludedDirNames : List String := ["obj", "bin", ".vs", "node_modules"]

/-- Does the string start with a path separator? -/
def startsWithSlash (s : String) : Bool :=
  match s.toList with
  | '/' :: _ => true
  | _ => false

/-- Does the string end with a path separator? -/
def endsWithSlash (s : String) : Bool :=
  match s.toList.reverse with
  | '/' :: _ => true
  | _ => false

/-- Embedding of `os.path.join(root, name)`. -/
def pjoin (root name : String) : String :=
  if startsWithSlash name then name
  else if root = "" || endsWithSlash root then root ++ name
  else root ++ "/" ++ name

mutual
/-- `os.walk` with the `dirs[:]` pruning of `scan_directory`: the visited
(root, files) pairs in top-down order. -/
def walkTree (root : String) : DirTree → List (String × List String)
  | .node dirs files => (root, files) :: walkDirs root dirs
/-- The walk over a pruned list of subdirectories. -/
def walkDirs (root : String) : DirList → List (String × List String)
  | .nil => []
  | .cons name t rest =>
      (if excludedDirNames.contains name then [] else walkTree (pjoin root name) t)
        ++ walkDirs root rest
end

/-- Embedding of `scan_directory`. -/
def scan_directory (fs : FileSystem) (directory : String) (tree : DirTree) : List Issue :=
  (walkTree directory tree).flatMap
    (fun rf => rf.2.flatMap (fun file => scan_file fs (pjoin rf.1 file)))

-- ## Grouping (defaultdict-based aggregation)

/-- Append a key if not yet present (insertion order of a dict). -/
def addKey (acc : List String) (k : String) : List String :=
  if k ∈ acc then acc else acc ++ [k]

/-- The distinct keys of a list in first-encounter order. -/
def keysOf (l : List String) : List String := l.foldl addKey []

/-- Grouping by a key function: the `defaultdict(list)` loops of
`group_issues_by_type` / `_severity` / `_file`, as an association list in
key insertion order whose values preserve encounter order. -/
def groupByKey (key : Issue → String) (issues : List Issue) : List (String × List Issue) :=
  (keysOf (issues.map key)).map (fun k => (k, issues.filter (fun i => key i == k)))

/-- Embedding of `group_issues_by_type`. -/
def group_issues_by_type (issues : List Issue) : List (String × List Issue) :=
  groupByKey (fun i => i.issue_type) issues

/-- Embedding of `group_issues_by_severity`. -/
def group_issues_by_severity (issues : List Issue) : List (String × List Issue) :=
  groupByKey (fun i => i.severity) issues

/-- Embedding of `group_issues_by_file`. -/
def group_issues_by_file (issues : List Issue) : List (String × List Issue) :=
  groupByKey (fun i => i.filepath) issues

/-- Dictionary lookup with default (`d[k]` / `k in d`). -/
def dictGetD (d : List (String × List Issue)) (k : String) : List Issue :=
  match d.find? (fun p => p.1 == k) with
  | some p => p.2
  | none => []

/-- `k in d` for the association-list dictionaries. -/
def dictHasKey (d : List (String × List Issue)) (k : String) : Bool :=
  (d.find? (fun p => p.1 == k)).isSome

-- ## Reporter (print_issues_summary), modelled as the list of printed lines

/-- Stable descending insertion by group size: one step of Python's stable
`sorted(..., key=lambda x: len(x[1]), reverse=True)`. -/
def insertBySizeDesc (x : String × List Issue) :
    List (String × List Issue) → List (String × List Issue)
  | [] => [x]
  | y :: ys =>
      if y.2.length < x.2.length then x :: y :: ys
      else y :: insertBySizeDesc x ys

/-- Stable sort, descending by group size, ties in original order. -/
def sortBySizeDesc (l : List (String × List Issue)) : List (String × List Issue) :=
  l.foldl (fun acc x => insertBySizeDesc x acc) []

/-- The per-severity count lines of the report. -/
def severityLines (issues : List Issue) : List String :=
  (["high", "medium", "low"].filter
      (fun s => dictHasKey (group_issues_by_severity issues) s)).map
    (fun s => s!"  {s.toUpper}: {(dictGetD (group_issues_by_severity issues) s).length}")

/-- The per-issue-type count lines of the report, sorted by count
descending (stable, hence ties in first-encounter order). -/
def typeCountLines (issues : List Issue) : List String :=
  (sortBySizeDesc (group_issues_by_type issues)).map
    (fun g => s!"  {g.1}: {g.2.length}")

/-- One detailed line of the high-severity listing. -/
def issueDetailLine (issue : Issue) : String :=
  s!"  {issue.filepath}:{issue.line_number} - {issue.description}"

/-- The `... and N more` trailer line of the high-severity listing. -/
def moreTrailer (n : Nat) : String := s!"  ... and {n} more"

/-- The `enumerate` loop printing high-severity details, truncating at 10. -/
def highLoop (total : Nat) (i : Nat) : List Issue → List String
  | [] => []
  | issue :: rest =>
      if 10 ≤ i then [moreTrailer (total - 10)]
      else issueDetailLine issue :: highLoop total (i + 1) rest

/-- The detailed high-severity listing of `print_issues_summary`. -/
def highDetailLines (highs : List Issue) : List String :=
  highLoop highs.length 0 highs

/-- The top-10 files section of the report. -/
def topFilesLines (issues : List Issue) : List String :=
  ((sortBySizeDesc (group_issues_by_file issues)).take 10).map
    (fun g => s!"  {g.1}: {g.2.length}")

/-- Embedding of `print_issues_summary` as the list of lines printed. -/
def print_issues_summary (issues : List Issue) : List String :=
  if issues.isEmpty then ["No issues found!"]
  else
    [s!"Found {issues.length} issues:", "", "By Severity:"]
      ++ severityLines issues
      ++ ["", "By Issue Type:"]
      ++ typeCountLines issues
      ++ (if dictHasKey (group_issues_by_severity issues) "high" then
            ["", "High Severity Issues:"]
              ++ highDetailLines (dictGetD (group_issues_by_severity issues) "high")
          else [])
      ++ ["", "Files with Most Issues:"]
      ++ topFilesLines issues

-- ## Dependency lister (src/tools/find_dependencies.py)

mutual
/-- An XML element as seen by `xml.etree.ElementTree`. -/
inductive XmlElem where
  | node (tag : String) (attrs : List (String × String)) (children : XmlChildren)
/-- The child elements of an `XmlElem`, in document order. -/
inductive XmlChildren where
  | nil
  | cons (e : XmlElem) (rest : XmlChildren)
end

/-- `element.get(key)`: attribute lookup, `None` when absent. -/
def xmlGet (e : XmlElem) (key : String) : Option String :=
  match e with
  | .node _ attrs _ => (attrs.find? (fun a => a.1 == key)).map (fun a => a.2)

/-- The tag of an element. -/
def xmlTag (e : XmlElem) : String :=
  match e with | .node tag _ _ => tag

mutual
/-- `root.findall('.//tag')`: all proper descendants with the given tag,
in document order. -/
def findall (tag : String) (e : XmlElem) : List XmlElem :=
  match e with
  | .node _ _ children => findallChildren tag children
/-- `findall` over a list of child elements. -/
def findallChildren (tag : String) : XmlChildren → List XmlElem
  | .nil => []
  | .cons c rest =>
      ((if xmlTag c == tag then [c] else []) ++ findall tag c)
        ++ findallChildren tag rest
end

/-- Abstract file system for the dependency lister: `ET.parse` either
yields the root element of a manifest or raises, with an error message. -/
structure DepFS where
  parseXml : String → Except String XmlElem

/-- `'.csproj'` as a character list. -/
def csprojChars : List Char := ['.', 'c', 's', 'p', 'r', 'o', 'j']

/-- Python `s.replace('.csproj', '')`: remove every non-overlapping
occurrence of `.csproj`, scanning left to right. -/
def stripCsproj : List Char → List Char
  | '.' :: 'c' :: 's' :: 'p' :: 'r' :: 'o' :: 'j' :: rest => stripCsproj rest
  | c :: rest => c :: stripCsproj rest
  | [] => []

/-- Embedding of `get_project_name`:
`os.path.basename(csproj_path).replace('.csproj', '')`. -/
def get_project_name (csproj_path : String) : String :=
  String.mk (stripCsproj (basenameL csproj_path.toList))

/-- One package reference dict: (`Include` attribute, `Version` attribute). -/
structure PackageRef where
  include_attr : Option String
  version_attr : Option String
deriving DecidableEq, Repr

/-- Embedding of `extract_package_references`: the returned list together
with the lines printed (the per-file parse error, if any). -/
def extract_package_references (fs : DepFS) (csproj_path : String) :
    List PackageRef × List String :=
  match fs.parseXml csproj_path with
  | .ok root =>
      ((findall "PackageReference" root).map
        (fun e => ⟨xmlGet e "Include", xmlGet e "Version"⟩), [])
  | .error e => ([], [s!"Error parsing {csproj_path}: {e}"])

/-- Embedding of `extract_project_references`: the returned list of bare
project names together with the lines printed. -/
def extract_project_references (fs : DepFS) (csproj_path : String) :
    List String × List String :=
  match fs.parseXml csproj_path with
  | .ok root =>
      ((findall "ProjectReference" root).filterMap
        (fun e =>
          match xmlGet e "Include" with
          | some include_path =>
              if include_path = "" then none
              else some (get_project_name include_path)
          | none => none), [])
  | .error e => ([], [s!"Error parsing {csproj_path}: {e}"])

/-- The per-manifest results computed by the loop of
`analyze_dependencies`: project name, package references, project
references, and the diagnostic lines printed while extracting. -/
structure ProjectEntry where
  name : String
  packages : List PackageRef
  projectRefs : List String
  printed : List String
deriving DecidableEq, Repr

/-- The body of the first loop of `analyze_dependencies` for one manifest
path. -/
def projectEntry (fs : DepFS) (csproj_path : String) : ProjectEntry :=
  let pkgs := extract_package_references fs csproj_path
  let refs := extract_project_references fs csproj_path
  ⟨get_project_name csproj_path, pkgs.1, refs.1, pkgs.2 ++ refs.2⟩

/-- The first loop of `analyze_dependencies` over all found manifests. -/
def analyzeEntries (fs : DepFS) (csproj_paths : List String) : List ProjectEntry :=
  csproj_paths.map (projectEntry fs)

-- ## Fixtures used by witness theorems

/-- A file system where no path exists. -/
def fsNone : FileSystem := ⟨fun _ => false, fun _ => false, fun _ => []⟩

/-- A file system where every path is a regular file whose single line
matches a catalog pattern. -/
def fsCatchAll : FileSystem := ⟨fun _ => true, fun _ => true, fun _ => ["catch (Exception e)"]⟩

-- ## C8, C9, C10: early-return behaviour of scan_file

/-- C8: for every path that does not exist or is not a regular file,
`scan_file` returns the empty list of findings (and, being a total
function, does not raise). -/
theorem scan_file_missing_path_eq_nil (fs : FileSystem) (p : String)
    (h : fs.pathExists p = false ∨ fs.isFile p = false) : scan_file fs p = [] := by
  unfold scan_file
  rcases h with h | h <;> simp [h]

/-- Witness for C8 at a concrete missing path. -/
theorem scan_file_missing_path_eq_nil_witness : scan_file fsNone "ghost.cs" = [] :=
  scan_file_missing_path_eq_nil fsNone "ghost.cs" (Or.inl rfl)

/-- C9: for every file whose extension is not in the allow-list,
`scan_file` returns zero findings regardless of the file's content. -/
theorem scan_file_ineligible_extension_eq_nil (fs : FileSystem) (p : String)
    (h : allowedExtensions.contains (fileExtension p) = false) : scan_file fs p = [] := by
  unfold scan_file
  split
  · rfl
  · split
    · rfl
    · rw [h]
      simp

/-- Witness for C9: a `.txt` file whose single line matches a catalog
pattern still yields zero findings. -/
theorem scan_file_ineligible_extension_eq_nil_witness :
    scan_file fsCatchAll "notes.txt" = [] :=
  scan_file_ineligible_extension_eq_nil fsCatchAll "notes.txt" (by decide)

/-- C10: the exclusion filter of `scan_file` is substring containment on
the whole path: any path containing `obj/`, `bin/`, `.vs/` or
`node_modules/` anywhere yields the empty list. -/
theorem scan_file_excluded_substring_eq_nil (fs : FileSystem) (p : String)
    (h : containsExcludedPart p = true) : scan_file fs p = [] := by
  unfold scan_file
  split
  · rfl
  · simp [h]

/-- Witness for C10: a path through a directory named `cabin` contains the
substring `bin/` and is skipped, although `cabin` is not an excluded
directory name. -/
theorem scan_file_excluded_substring_eq_nil_witness :
    scan_file fsCatchAll "cabin/x.cs" = [] :=
  scan_file_excluded_substring_eq_nil fsCatchAll "cabin/x.cs" (by decide)

-- ## C3: truncation of the high-severity detail listing

/-- Behaviour of the truncating `enumerate` loop when the remaining list
overruns the limit of 10. -/
theorem highLoop_append_trailer (l : List Issue) : ∀ (total i : Nat), i ≤ 10 →
    10 < i + l.length →
    highLoop total i l = (l.take (10 - i)).map issueDetailLine ++ [moreTrailer (total - 10)] := by
  induction l with
  | nil =>
      intro total i h1 h2
      simp only [List.length_nil] at h2
      omega
  | cons x t ih =>
      intro total i h1 h2
      by_cases hi : 10 ≤ i
      · have hie : i = 10 := le_antisymm h1 hi
        subst hie
        simp [highLoop]
      · simp only [highLoop, if_neg hi]
        have h10 : 10 - i = (10 - (i + 1)) + 1 := by omega
        rw [h10, List.take_succ_cons, List.map_cons, List.cons_append]
        congr 1
        exact ih total (i + 1) (by omega) (by simp only [List.length_cons] at h2; omega)

/-- C3: when the high-severity group holds more than 10 findings, the
detailed listing is exactly the first 10 entries rendered as
`path:line - description` followed by the single `... and N more` trailer
for the remaining count. -/
theorem highSeverity_listing_truncation (issues : List Issue)
    (h : 10 < (dictGetD (group_issues_by_severity issues) "high").length) :
    highDetailLines (dictGetD (group_issues_by_severity issues) "high") =
      ((dictGetD (group_issues_by_severity issues) "high").take 10).map issueDetailLine
        ++ [moreTrailer ((dictGetD (group_issues_by_severity issues) "high").length - 10)] := by
  unfold highDetailLines
  have := highLoop_append_trailer (dictGetD (group_issues_by_severity issues) "high")
    (dictGetD (group_issues_by_severity issues) "high").length 0 (by omega) (by omega)
  simpa using this

/-- Fifteen high-severity findings, for the C3 witness. -/
def issuesHigh15 : List Issue :=
  (List.range 15).map
    (fun n => ⟨"App/Program.cs", n + 1, "async_antipattern", "Using .Result instead of await", "high"⟩)

/-- Witness for C3: with 15 high-severity findings the listing is the
first 10 entries plus a trailer stating 5 more. -/
theorem highSeverity_listing_truncation_witness :
    highDetailLines (dictGetD (group_issues_by_severity issuesHigh15) "high") =
      ((dictGetD (group_issues_by_severity issuesHigh15) "high").take 10).map issueDetailLine
        ++ [moreTrailer 5] := by
  have h := highSeverity_listing_truncation issuesHigh15 (by decide)
  have e : (dictGetD (group_issues_by_severity issuesHigh15) "high").length - 10 = 5 := by decide
  rw [e] at h
  exact h

-- ## C2: concrete scan scenario

/-- A directory holding the single file `Test.cs`. -/
def treeOneFile : DirTree := .node .nil ["Test.cs"]

/-- A file system where every path is a regular file with the single line
`catch (Exception e)`. -/
def fsCatchLine : FileSystem :=
  ⟨fun _ => true, fun _ => true, fun _ => ["catch (Exception e)"]⟩

/-- C2: scanning a directory containing one eligible file whose single
line is `catch (Exception e)` produces exactly one finding, with issue
type `exception_handling`, severity `medium` and line number 1; the
second conjunct records that `catch\s*\(\s*Exception` is the only catalog
pattern matching that line. -/
theorem scan_directory_catch_line_single_finding :
    scan_directory fsCatchLine "dir" treeOneFile =
      [⟨"dir/Test.cs", 1, "exception_handling", "Catching generic Exception", "medium"⟩] ∧
    (patternsTable.filter (fun r => research r.pattern "catch (Exception e)")).map
        (fun r => r.issue_type) = ["exception_handling"] := by
  constructor
  · decide
  · decide

-- ## C1: each grouping is a total partition

/-- `addKey` membership. -/
theorem mem_addKey {acc : List String} {k a : String} :
    a ∈ addKey acc k ↔ a ∈ acc ∨ a = k := by
  unfold addKey
  split
  · rename_i h
    constructor
    · exact Or.inl
    · rintro (ha | rfl)
      · exact ha
      · exact h
  · simp [List.mem_append]

/-- `addKey` preserves distinctness. -/
theorem nodup_addKey {acc : List String} {k : String} (h : acc.Nodup) :
    (addKey acc k).Nodup := by
  unfold addKey
  split
  · exact h
  · rename_i hk
    rw [List.nodup_append]
    exact ⟨h, List.nodup_singleton _, by intro a ha hak; simp at hak; exact hk (hak ▸ ha)⟩

/-- Membership after folding `addKey`. -/
theorem mem_foldl_addKey (l : List String) : ∀ (acc : List String) (a : String),
    a ∈ l.foldl addKey acc ↔ a ∈ acc ∨ a ∈ l := by
  induction l with
  | nil => simp
  | cons k t ih =>
      intro acc a
      rw [List.foldl_cons, ih, mem_addKey]
      simp
      tauto

/-- Distinctness after folding `addKey`. -/
theorem nodup_foldl_addKey (l : List String) : ∀ acc : List String, acc.Nodup →
    (l.foldl addKey acc).Nodup := by
  induction l with
  | nil => intro acc h; exact h
  | cons k t ih => intro acc h; exact ih _ (nodup_addKey h)

/-- The keys produced by `keysOf` are exactly those of the input. -/
theorem mem_keysOf {l : List String} {a : String} : a ∈ keysOf l ↔ a ∈ l := by
  unfold keysOf
  rw [mem_foldl_addKey]
  simp

/-- The keys produced by `keysOf` are distinct. -/
theorem nodup_keysOf (l : List String) : (keysOf l).Nodup :=
  nodup_foldl_addKey l [] (List.nodup_nil)

/-- Counting inside a key-filtered list. -/
theorem count_filter_eq_ite (key : Issue → String) (k : String) (a : Issue)
    (issues : List Issue) :
    (issues.filter (fun i => key i == k)).count a =
      if key a = k then issues.count a else 0 := by
  by_cases h : key a = k
  · rw [if_pos h]
    exact List.count_filter (by simp [h])
  · rw [if_neg h]
    rw [List.count_eq_zero]
    intro hmem
    have h2 := (List.mem_filter.mp hmem).2
    simp at h2
    exact h h2

/-- Summing an indicator over a distinct key list containing the key. -/
theorem sum_map_ite {ks : List String} (hn : ks.Nodup) {x : String} (hm : x ∈ ks) (c : ℕ) :
    (ks.map (fun k => if x = k then c else 0)).sum = c := by
  induction ks with
  | nil => cases hm
  | cons y t ih =>
      rw [List.map_cons, List.sum_cons]
      rcases List.mem_cons.mp hm with rfl | hmt
      · rw [if_pos rfl]
        have hnot : x ∉ t := (List.nodup_cons.mp hn).1
        have hz : (t.map (fun k => if x = k then c else 0)).sum = 0 := by
          apply List.sum_eq_zero
          intro z hz
          obtain ⟨k, hk, rfl⟩ := List.mem_map.mp hz
          rw [if_neg]
          intro h
          exact hnot (h ▸ hk)
        rw [hz]
        omega
      · have hxy : x ≠ y := by
          rintro rfl
          exact (List.nodup_cons.mp hn).1 hmt
        rw [if_neg hxy, ih (List.nodup_cons.mp hn).2 hmt]
        simp

/-- Concatenating the groups of `groupByKey` permutes the input list. -/
theorem groupByKey_flatten_perm (key : Issue → String) (issues : List Issue) :
    ((groupByKey key issues).map Prod.snd).flatten.Perm issues := by
  rw [List.perm_iff_count]
  intro a
  rw [List.count_flatten]
  unfold groupByKey
  rw [List.map_map, List.map_map]
  have hcong :
      (keysOf (issues.map key)).map
          ((List.count a ∘ Prod.snd) ∘ fun k => (k, issues.filter (fun i => key i == k))) =
        (keysOf (issues.map key)).map (fun k => if key a = k then issues.count a else 0) := by
    apply List.map_congr_left
    intro k _
    simp only [Function.comp]
    exact count_filter_eq_ite key k a issues
  rw [hcong]
  by_cases hmem : key a ∈ keysOf (issues.map key)
  · rw [sum_map_ite (nodup_keysOf _) hmem]
  · have hnotin : a ∉ issues := by
      intro ha
      exact hmem (mem_keysOf.mpr (List.mem_map.mpr ⟨a, ha, rfl⟩))
    rw [List.count_eq_zero.mpr hnotin]
    apply List.sum_eq_zero
    intro z hz
    obtain ⟨k, hk, rfl⟩ := List.mem_map.mp hz
    rw [if_neg]
    intro h
    exact hmem (h ▸ hk)

/-- The group keys of `groupByKey` are the distinct keys in encounter
order. -/
theorem groupByKey_keys (key : Issue → String) (issues : List Issue) :
    (groupByKey key issues).map Prod.fst = keysOf (issues.map key) := by
  unfold groupByKey
  rw [List.map_map]
  have hid : (Prod.fst ∘ fun k => (k, issues.filter (fun i => key i == k))) = id := rfl
  rw [hid, List.map_id]

/-- Every member of a group carries that group's key. -/
theorem groupByKey_mem_key (key : Issue → String) (issues : List Issue) :
    ∀ g ∈ groupByKey key issues, ∀ i ∈ g.2, key i = g.1 := by
  intro g hg i hi
  unfold groupByKey at hg
  obtain ⟨k, _, rfl⟩ := List.mem_map.mp hg
  have h2 := (List.mem_filter.mp hi).2
  simpa using h2

/-- Group sizes sum to the input length. -/
theorem groupByKey_sizes_sum (key : Issue → String) (issues : List Issue) :
    ((groupByKey key issues).map (fun g => g.2.length)).sum = issues.length := by
  have hp := (groupByKey_flatten_perm key issues).length_eq
  rw [List.length_flatten, List.map_map] at hp
  exact hp

/-- C1: each of the three groupings is a total partition of the input:
concatenating its groups permutes the finding list (nothing dropped or
duplicated), group keys are distinct and every finding sits in the group
of its own key (hence in exactly one group), and group sizes sum to the
input length. -/
theorem group_issues_partitions (issues : List Issue) :
    ((group_issues_by_severity issues).map Prod.snd).flatten.Perm issues ∧
    ((group_issues_by_type issues).map Prod.snd).flatten.Perm issues ∧
    ((group_issues_by_file issues).map Prod.snd).flatten.Perm issues ∧
    ((group_issues_by_severity issues).map Prod.fst).Nodup ∧
    ((group_issues_by_type issues).map Prod.fst).Nodup ∧
    ((group_issues_by_file issues).map Prod.fst).Nodup ∧
    (∀ g ∈ group_issues_by_severity issues, ∀ i ∈ g.2, i.severity = g.1) ∧
    (∀ g ∈ group_issues_by_type issues, ∀ i ∈ g.2, i.issue_type = g.1) ∧
    (∀ g ∈ group_issues_by_file issues, ∀ i ∈ g.2, i.filepath = g.1) ∧
    ((group_issues_by_severity issues).map (fun g => g.2.length)).sum = issues.length ∧
    ((group_issues_by_type issues).map (fun g => g.2.length)).sum = issues.length ∧
    ((group_issues_by_file issues).map (fun g => g.2.length)).sum = issues.length := by
  refine ⟨groupByKey_flatten_perm _ _, groupByKey_flatten_perm _ _, groupByKey_flatten_perm _ _,
          ?_, ?_, ?_,
          groupByKey_mem_key _ _, groupByKey_mem_key _ _, groupByKey_mem_key _ _,
          groupByKey_sizes_sum _ _, groupByKey_sizes_sum _ _, groupByKey_sizes_sum _ _⟩
  · rw [group_issues_by_severity, groupByKey_keys]
    exact nodup_keysOf _
  · rw [group_issues_by_type, groupByKey_keys]
    exact nodup_keysOf _
  · rw [group_issues_by_file, groupByKey_keys]
    exact nodup_keysOf _

-- ## C4: per-category counts, descending, stable ties

/-- Index of the first occurrence of an entry in a group list; for
`group_issues_by_type` this is the encounter order of the category's
first occurrence in the finding list. -/
def posIn : List (String × List Issue) → (String × List Issue) → Nat
  | [], _ => 0
  | y :: ys, x => if y = x then 0 else posIn ys x + 1

/-- Membership through `insertBySizeDesc`. -/
theorem mem_insertBySizeDesc {x z : String × List Issue} :
    ∀ {l}, z ∈ insertBySizeDesc x l ↔ z = x ∨ z ∈ l := by
  intro l
  induction l with
  | nil => simp [insertBySizeDesc]
  | cons y ys ih =>
      simp only [insertBySizeDesc]
      split
      · simp [List.mem_cons]
      · simp only [List.mem_cons, ih]
        tauto

/-- `insertBySizeDesc` permutes consing. -/
theorem perm_insertBySizeDesc (x : String × List Issue) (l : List (String × List Issue)) :
    (insertBySizeDesc x l).Perm (x :: l) := by
  induction l with
  | nil => exact List.Perm.refl _
  | cons y ys ih =>
      simp only [insertBySizeDesc]
      split
      · exact List.Perm.refl _
      · exact (ih.cons y).trans (List.Perm.swap x y ys)

/-- The stable sort permutes its input. -/
theorem perm_sortBySizeDesc (l : List (String × List Issue)) :
    (sortBySizeDesc l).Perm l := by
  have aux : ∀ (t acc : List (String × List Issue)),
      (t.foldl (fun acc x => insertBySizeDesc x acc) acc).Perm (t ++ acc) := by
    intro t
    induction t with
    | nil => intro acc; simp
    | cons x t2 ih =>
        intro acc
        rw [List.foldl_cons]
        refine ((ih (insertBySizeDesc x acc)).trans ?_).trans List.perm_middle
        exact List.Perm.append_left t2 (perm_insertBySizeDesc x acc)
  have h := aux l []
  simpa using h

/-- Inserting an element of maximal position keeps the list pairwise
ordered by count descending with position tie-break. -/
theorem pairwise_insertBySizeDesc (pos : (String × List Issue) → Nat)
    (x : String × List Issue) :
    ∀ l : List (String × List Issue),
      l.Pairwise (fun a b => b.2.length < a.2.length ∨
        (a.2.length = b.2.length ∧ pos a < pos b)) →
      (∀ y ∈ l, pos y < pos x) →
      (insertBySizeDesc x l).Pairwise (fun a b => b.2.length < a.2.length ∨
        (a.2.length = b.2.length ∧ pos a < pos b)) := by
  intro l
  induction l with
  | nil =>
      intro _ _
      simp [insertBySizeDesc]
  | cons y ys ih =>
      intro hl hpos
      rw [List.pairwise_cons] at hl
      obtain ⟨hy, hys⟩ := hl
      simp only [insertBySizeDesc]
      split
      · rename_i hlen
        rw [List.pairwise_cons]
        constructor
        · intro z hz
          rcases List.mem_cons.mp hz with rfl | hzys
          · exact Or.inl hlen
          · rcases hy z hzys with h | ⟨heq, _⟩
            · exact Or.inl (lt_trans h hlen)
            · exact Or.inl (heq ▸ hlen)
        · exact List.pairwise_cons.mpr ⟨hy, hys⟩
      · rename_i hlen
        rw [List.pairwise_cons]
        constructor
        · intro z hz
          rcases mem_insertBySizeDesc.mp hz with rfl | hzys
          · have hle : z.2.length ≤ y.2.length := Nat.not_lt.mp hlen
            rcases Nat.lt_or_ge z.2.length y.2.length with h | h
            · exact Or.inl h
            · exact Or.inr ⟨le_antisymm h hle, hpos y (List.mem_cons_self y ys)⟩
          · exact hy z hzys
        · exact ih hys (fun y2 hy2 => hpos y2 (List.mem_cons_of_mem y hy2))

/-- Folding stable insertion over elements of increasing position yields
a pairwise count-descending, position-stable list. -/
theorem pairwise_sortBySizeDesc_aux (pos : (String × List Issue) → Nat) :
    ∀ (l acc : List (String × List Issue)),
      l.Pairwise (fun a b => pos a < pos b) →
      acc.Pairwise (fun a b => b.2.length < a.2.length ∨
        (a.2.length = b.2.length ∧ pos a < pos b)) →
      (∀ y ∈ acc, ∀ x ∈ l, pos y < pos x) →
      (l.foldl (fun acc x => insertBySizeDesc x acc) acc).Pairwise
        (fun a b => b.2.length < a.2.length ∨
          (a.2.length = b.2.length ∧ pos a < pos b)) := by
  intro l
  induction l with
  | nil => intro acc _ hacc _; exact hacc
  | cons x t ih =>
      intro acc hl hacc hcross
      rw [List.pairwise_cons] at hl
      obtain ⟨hx, ht⟩ := hl
      rw [List.foldl_cons]
      apply ih _ ht
      · exact pairwise_insertBySizeDesc pos x acc hacc
          (fun y hy => hcross y hy x (List.mem_cons_self x t))
      · intro y hy z hz
        rcases mem_insertBySizeDesc.mp hy with rfl | hyacc
        · exact hx z hz
        · exact hcross y hyacc z (List.mem_cons_of_mem x hz)

/-- In a duplicate-free list, positions strictly increase along the list. -/
theorem nodup_posIn_pairwise : ∀ l : List (String × List Issue), l.Nodup →
    l.Pairwise (fun a b => posIn l a < posIn l b) := by
  intro l
  induction l with
  | nil => intro _; simp
  | cons y ys ih =>
      intro hl
      rw [List.nodup_cons] at hl
      obtain ⟨hy, hys⟩ := hl
      rw [List.pairwise_cons]
      constructor
      · intro b hb
        have hby : y ≠ b := fun h => hy (h ▸ hb)
        have h0 : posIn (y :: ys) y = 0 := by simp [posIn]
        have hb1 : posIn (y :: ys) b = posIn ys b + 1 := by simp [posIn, hby]
        rw [h0, hb1]
        omega
      · apply List.Pairwise.imp_of_mem ?_ (ih hys)
        intro a b ha hb h
        have hay : y ≠ a := fun he => hy (he ▸ ha)
        have hby : y ≠ b := fun he => hy (he ▸ hb)
        have ha1 : posIn (y :: ys) a = posIn ys a + 1 := by simp [posIn, hay]
        have hb1 : posIn (y :: ys) b = posIn ys b + 1 := by simp [posIn, hby]
        rw [ha1, hb1]
        omega

/-- The group list itself is duplicate-free (its keys are distinct). -/
theorem nodup_groupByKey (key : Issue → String) (issues : List Issue) :
    (groupByKey key issues).Nodup := by
  unfold groupByKey
  exact (nodup_keysOf (issues.map key)).map
    (fun a b h => congrArg Prod.fst h)

/-- C4: the reporter's per-category counts are the groups of
`group_issues_by_type` sorted by count descending with ties kept in the
group list's order, i.e. in encounter order of each category's first
occurrence (the group list is built in first-encounter key order); the
printed lines are exactly the counts of that sorted list. -/
theorem typeCounts_sorted_desc_stable (issues : List Issue) :
    (sortBySizeDesc (group_issues_by_type issues)).Perm (group_issues_by_type issues) ∧
    (sortBySizeDesc (group_issues_by_type issues)).Pairwise
      (fun a b => b.2.length < a.2.length ∨
        (a.2.length = b.2.length ∧
          posIn (group_issues_by_type issues) a < posIn (group_issues_by_type issues) b)) ∧
    typeCountLines issues =
      (sortBySizeDesc (group_issues_by_type issues)).map
        (fun g => s!"  {g.1}: {g.2.length}") := by
  refine ⟨perm_sortBySizeDesc _, ?_, rfl⟩
  unfold sortBySizeDesc
  apply pairwise_sortBySizeDesc_aux (posIn (group_issues_by_type issues))
    (group_issues_by_type issues) []
  · exact nodup_posIn_pairwise _ (nodup_groupByKey _ _)
  · exact List.Pairwise.nil
  · intro y hy
    cases hy

-- ## C5: excluded directory names never appear in finding paths

/-- Path segments: split a character list at `/`. -/
def pathSegs : List Char → List (List Char)
  | [] => [[]]
  | c :: rest =>
      if c = '/' then [] :: pathSegs rest
      else
        match pathSegs rest with
        | [] => [[c]]
        | s :: ss => (c :: s) :: ss

/-- `pathSegs` never returns the empty list. -/
theorem pathSegs_ne_nil : ∀ l : List Char, pathSegs l ≠ [] := by
  intro l
  match l with
  | [] => simp [pathSegs]
  | c :: rest =>
      by_cases hc : c = '/'
      · simp [pathSegs, hc]
      · cases hps : pathSegs rest with
        | nil => simp [pathSegs, hc, hps]
        | cons s ss => simp [pathSegs, hc, hps]

/-- A list all of whose characters pass the predicate is its own
`takeWhile`. -/
theorem takeWhile_eq_self_of_all (q : Char → Bool) : ∀ l : List Char, l.all q = true →
    l.takeWhile q = l := by
  intro l
  induction l with
  | nil => intro _; rfl
  | cons c t ih =>
      intro h
      obtain ⟨hc, ht⟩ : q c = true ∧ t.all q = true := by simpa using h
      rw [List.takeWhile_cons, if_pos hc, ih ht]

/-- `takeWhile` over an append. -/
theorem takeWhile_append_eq (q : Char → Bool) : ∀ l m : List Char,
    (l ++ m).takeWhile q = if l.all q then l ++ m.takeWhile q else l.takeWhile q := by
  intro l
  induction l with
  | nil => intro m; simp
  | cons c t ih =>
      intro m
      rw [List.cons_append, List.takeWhile_cons, List.takeWhile_cons, List.all_cons, ih m]
      cases hc : q c
      · simp
      · by_cases hall : t.all q
        · simp [hall]
        · simp [hall]

/-- Prepending a character keeps the basename when a separator occurs
later. -/
theorem basenameL_cons_of_mem (c : Char) (rest : List Char) (h : '/' ∈ rest) :
    basenameL (c :: rest) = basenameL rest := by
  unfold basenameL
  rw [List.reverse_cons, takeWhile_append_eq]
  have hnall : ¬(rest.reverse.all (fun x => x != '/') = true) := by
    intro hall
    have h2 := List.all_eq_true.mp hall '/' (List.mem_reverse.mpr h)
    simp at h2
  rw [if_neg hnall]

/-- A leading separator does not change the basename. -/
theorem basenameL_slash_cons (rest : List Char) :
    basenameL ('/' :: rest) = basenameL rest := by
  unfold basenameL
  rw [List.reverse_cons, takeWhile_append_eq]
  by_cases hall : rest.reverse.all (fun x => x != '/') = true
  · rw [if_pos hall]
    have h1 : List.takeWhile (fun x => x != '/') ['/'] = [] := rfl
    rw [h1, List.append_nil, takeWhile_eq_self_of_all _ _ hall]
  · rw [if_neg hall]

/-- A separator-free list is its own basename. -/
theorem basenameL_no_slash (l : List Char) (h : ∀ c ∈ l, c ≠ '/') :
    basenameL l = l := by
  unfold basenameL
  have hall : l.reverse.all (fun x => x != '/') = true := by
    rw [List.all_eq_true]
    intro x hx
    have := h x (List.mem_reverse.mp hx)
    simpa using this
  rw [takeWhile_eq_self_of_all _ _ hall, List.reverse_reverse]

/-- A separator-free list is a single path segment. -/
theorem pathSegs_no_slash : ∀ l : List Char, (∀ c ∈ l, c ≠ '/') →
    pathSegs l = [l] := by
  intro l
  induction l with
  | nil => intro _; rfl
  | cons c rest ih =>
      intro h
      have hc : c ≠ '/' := h c (List.mem_cons_self c rest)
      have hrest := ih (fun x hx => h x (List.mem_cons_of_mem c hx))
      simp [pathSegs, hc, hrest]

/-- Decomposition of a path along its first segment. -/
theorem pathSegs_head_decomp : ∀ (l : List Char) (s : List Char) (ss : List (List Char)),
    pathSegs l = s :: ss →
    (ss = [] ∧ l = s) ∨ ∃ suf, l = s ++ '/' :: suf ∧ pathSegs suf = ss := by
  intro l
  induction l with
  | nil =>
      intro s ss h
      simp only [pathSegs] at h
      injection h with h1 h2
      exact Or.inl ⟨h2.symm, h1⟩
  | cons c rest ih =>
      intro s ss h
      by_cases hc : c = '/'
      · subst hc
        rw [show pathSegs ('/' :: rest) = [] :: pathSegs rest from by simp [pathSegs]] at h
        injection h with h1 h2
        subst h1
        exact Or.inr ⟨rest, by simp, h2⟩
      · obtain ⟨s2, ss2, hps⟩ : ∃ s2 ss2, pathSegs rest = s2 :: ss2 := by
          cases hps : pathSegs rest with
          | nil => exact absurd hps (pathSegs_ne_nil rest)
          | cons a b => exact ⟨a, b, rfl⟩
        rw [show pathSegs (c :: rest) = (c :: s2) :: ss2 from by simp [pathSegs, hc, hps]] at h
        injection h with h1 h2
        subst h2
        rcases ih s2 ss2 hps with ⟨hss, hl⟩ | ⟨suf, hl, hseg⟩
        · subst hss
          exact Or.inl ⟨rfl, by rw [hl, ← h1]⟩
        · refine Or.inr ⟨suf, ?_, hseg⟩
          rw [← h1, hl]
          rfl

/-- Characterisation of path segments: a separator-free, nonempty segment
of a path is either followed by a separator (so `seg/` is a substring) or
it is the basename. -/
theorem seg_characterization : ∀ (l seg : List Char), seg ∈ pathSegs l → seg ≠ [] →
    (∀ c ∈ seg, c ≠ '/') →
    (∃ pre suf, l = pre ++ (seg ++ '/' :: suf)) ∨ basenameL l = seg := by
  intro l
  induction l with
  | nil =>
      intro seg hmem hne _
      simp only [pathSegs, List.mem_singleton] at hmem
      exact absurd hmem hne
  | cons c rest ih =>
      intro seg hmem hne hns
      by_cases hc : c = '/'
      · subst hc
        rw [show pathSegs ('/' :: rest) = [] :: pathSegs rest from by simp [pathSegs]] at hmem
        rcases List.mem_cons.mp hmem with rfl | hmem2
        · exact absurd rfl hne
        · rcases ih seg hmem2 hne hns with ⟨pre, suf, heq⟩ | hbn
          · exact Or.inl ⟨'/' :: pre, suf, by rw [heq]; rfl⟩
          · right
            rw [basenameL_slash_cons]
            exact hbn
      · obtain ⟨s2, ss2, hps⟩ : ∃ s2 ss2, pathSegs rest = s2 :: ss2 := by
          cases hps : pathSegs rest with
          | nil => exact absurd hps (pathSegs_ne_nil rest)
          | cons a b => exact ⟨a, b, rfl⟩
        have hcr : pathSegs (c :: rest) = (c :: s2) :: ss2 := by simp [pathSegs, hc, hps]
        rw [hcr] at hmem
        rcases List.mem_cons.mp hmem with rfl | hmemss
        · rcases pathSegs_head_decomp (c :: rest) (c :: s2) ss2 hcr with ⟨_, hl⟩ | ⟨suf, hl, _⟩
          · right
            have hbn := basenameL_no_slash (c :: rest) (by rw [hl]; exact hns)
            rw [hbn, hl]
          · exact Or.inl ⟨[], suf, by rw [hl]; rfl⟩
        · have hmemrest : seg ∈ pathSegs rest := by
            rw [hps]
            exact List.mem_cons_of_mem s2 hmemss
          rcases ih seg hmemrest hne hns with ⟨pre, suf, heq⟩ | hbn
          · exact Or.inl ⟨c :: pre, suf, by rw [heq]; rfl⟩
          · right
            have hss_ne : ss2 ≠ [] := List.ne_nil_of_mem hmemss
            have hslash : '/' ∈ rest := by
              by_contra hno
              have hone : pathSegs rest = [rest] :=
                pathSegs_no_slash rest (fun ch hch he => hno (he ▸ hch))
              rw [hone] at hps
              injection hps with _ h2
              exact hss_ne h2.symm
            rw [basenameL_cons_of_mem c rest hslash]
            exact hbn

/-- A list is a prefix of itself extended. -/
theorem isPrefixOf_append_self : ∀ pat suf : List Char, pat.isPrefixOf (pat ++ suf) = true := by
  intro pat
  induction pat with
  | nil => intro suf; simp [List.isPrefixOf]
  | cons c t ih =>
      intro suf
      simp [List.isPrefixOf, ih]

/-- A prefix occurrence is a substring occurrence. -/
theorem substrOf_of_isPrefixOf (pat l : List Char) (h : pat.isPrefixOf l = true) :
    substrOf pat l = true := by
  cases l with
  | nil => exact h
  | cons c rest =>
      rw [substrOf, h, Bool.true_or]

/-- Substring occurrences survive prepending. -/
theorem substrOf_cons_of (pat : List Char) (c : Char) {rest : List Char}
    (h : substrOf pat rest = true) : substrOf pat (c :: rest) = true := by
  rw [substrOf, h, Bool.or_true]

/-- Any explicit decomposition certifies a substring occurrence. -/
theorem substrOf_of_decomp (pat : List Char) : ∀ pre suf : List Char,
    substrOf pat (pre ++ (pat ++ suf)) = true := by
  intro pre
  induction pre with
  | nil =>
      intro suf
      exact substrOf_of_isPrefixOf pat _ (isPrefixOf_append_self pat suf)
  | cons c t ih =>
      intro suf
      exact substrOf_cons_of pat c (ih suf)

/-- Findings of `scanLinesFrom` carry the scanned file path. -/
theorem mem_scanLinesFrom_filepath (p : String) : ∀ (lines : List String) (n : Nat) (i : Issue),
    i ∈ scanLinesFrom p n lines → i.filepath = p := by
  intro lines
  induction lines with
  | nil => intro n i h; cases h
  | cons line rest ih =>
      intro n i h
      rw [scanLinesFrom] at h
      rcases List.mem_append.mp h with h1 | h2
      · unfold scanLine at h1
        obtain ⟨r, _, rfl⟩ := List.mem_map.mp h1
        rfl
      · exact ih (n + 1) i h2

/-- A finding produced by `scan_file` certifies that its path passed the
exclusion and eligibility filters, and names that path. -/
theorem mem_scan_file_facts (fs : FileSystem) (p : String) (i : Issue)
    (h : i ∈ scan_file fs p) :
    containsExcludedPart p = false ∧
    allowedExtensions.contains (fileExtension p) = true ∧ i.filepath = p := by
  unfold scan_file at h
  split at h
  · cases h
  · split at h
    · cases h
    · split at h
      · cases h
      · rename_i h1 h2 h3
        refine ⟨?_, ?_, mem_scanLinesFrom_filepath p _ 1 i h⟩
        · cases hb : containsExcludedPart p
          · rfl
          · exact absurd hb h2
        · cases hb : allowedExtensions.contains (fileExtension p)
          · rw [hb] at h3
            exact absurd rfl h3
          · rfl

/-- A nonempty separator-free name whose `name/` form is an excluded part
and whose own extension is ineligible cannot be a path segment of a path
that passed both `scan_file` filters. -/
theorem not_segment_of_filters (p name : String)
    (hex : containsExcludedPart p = false)
    (hok : allowedExtensions.contains (fileExtension p) = true)
    (hmem_part : String.mk (name.toList ++ ['/']) ∈ excludedParts)
    (hextname : allowedExtensions.contains
      (String.mk ((extBase name.toList).map Char.toLower)) = false)
    (hne : name.toList ≠ []) (hns : ∀ c ∈ name.toList, c ≠ '/') :
    name.toList ∉ pathSegs p.toList := by
  intro hmem
  rcases seg_characterization p.toList name.toList hmem hne hns with ⟨pre, suf, heq⟩ | hbn
  · have hsub : substrOf (String.mk (name.toList ++ ['/'])).toList p.toList = true := by
      have h1 : (String.mk (name.toList ++ ['/'])).toList = name.toList ++ ['/'] := rfl
      have h2 : pre ++ (name.toList ++ '/' :: suf) =
          pre ++ ((name.toList ++ ['/']) ++ suf) := by simp
      rw [h1, heq, h2]
      exact substrOf_of_decomp _ pre suf
    unfold containsExcludedPart at hex
    have hall := List.any_eq_false.mp hex
    exact hall _ hmem_part hsub
  · have hfe : fileExtension p = String.mk ((extBase name.toList).map Char.toLower) := by
      unfold fileExtension
      rw [hbn]
    rw [hfe] at hok
    rw [hextname] at hok
    cases hok

mutual
/-- Every root visited by the pruned walk is reachable from the start
root through directory names outside the exclusion set. -/
theorem walkTree_roots (root : String) (t : DirTree) :
    ∀ rf ∈ walkTree root t, ∃ segs : List String,
      rf.1 = segs.foldl pjoin root ∧ ∀ s ∈ segs, excludedDirNames.contains s = false := by
  match t with
  | .node dirs files =>
      intro rf hrf
      rw [walkTree] at hrf
      rcases List.mem_cons.mp hrf with rfl | h2
      · exact ⟨[], rfl, by intro s hs; cases hs⟩
      · exact walkDirs_roots root dirs rf h2
/-- As `walkTree_roots`, over a subdirectory list. -/
theorem walkDirs_roots (root : String) (dl : DirList) :
    ∀ rf ∈ walkDirs root dl, ∃ segs : List String,
      rf.1 = segs.foldl pjoin root ∧ ∀ s ∈ segs, excludedDirNames.contains s = false := by
  match dl with
  | .nil =>
      intro rf hrf
      rw [walkDirs] at hrf
      cases hrf
  | .cons name t rest =>
      intro rf hrf
      rw [walkDirs] at hrf
      rcases List.mem_append.mp hrf with h1 | h2
      · by_cases hx : excludedDirNames.contains name = true
        · rw [if_pos hx] at h1
          cases h1
        · rw [if_neg hx] at h1
          obtain ⟨segs, hseg, hall⟩ := walkTree_roots (pjoin root name) t rf h1
          refine ⟨name :: segs, ?_, ?_⟩
          · rw [List.foldl_cons]
            exact hseg
          · intro s hs
            rcases List.mem_cons.mp hs with rfl | hs2
            · cases hb : excludedDirNames.contains s
              · rfl
              · exact absurd hb hx
            · exact hall s hs2
      · exact walkDirs_roots root rest rf h2
end

/-- C5: the pruned walk only visits roots reached through non-excluded
directory names, and no finding of `scan_directory` has an excluded
directory name (`obj`, `bin`, `.vs`, `node_modules`) as a path segment of
its file path. -/
theorem scan_directory_no_excluded_segments (fs : FileSystem) (root : String) (tree : DirTree) :
    (∀ rf ∈ walkTree root tree, ∃ segs : List String,
        rf.1 = segs.foldl pjoin root ∧ ∀ s ∈ segs, excludedDirNames.contains s = false) ∧
    (∀ issue ∈ scan_directory fs root tree, ∀ name ∈ excludedDirNames,
        name.toList ∉ pathSegs issue.filepath.toList) := by
  constructor
  · exact walkTree_roots root tree
  · intro issue hmem name hname
    unfold scan_directory at hmem
    obtain ⟨rf, _, hmem2⟩ := List.mem_flatMap.mp hmem
    obtain ⟨file, _, hmem3⟩ := List.mem_flatMap.mp hmem2
    obtain ⟨hex, hok, hfp⟩ := mem_scan_file_facts fs _ issue hmem3
    rw [hfp]
    fin_cases hname
    · exact not_segment_of_filters _ "obj" hex hok (by decide) (by decide) (by decide) (by decide)
    · exact not_segment_of_filters _ "bin" hex hok (by decide) (by decide) (by decide) (by decide)
    · exact not_segment_of_filters _ ".vs" hex hok (by decide) (by decide) (by decide) (by decide)
    · exact not_segment_of_filters _ "node_modules" hex hok (by decide) (by decide) (by decide)
        (by decide)

/-- Witness for C5 at the concrete C2 scenario: the single finding's path
has no `obj` segment. -/
theorem scan_directory_no_excluded_segments_witness :
    "obj".toList ∉ pathSegs "dir/Test.cs".toList := by
  have h := (scan_directory_no_excluded_segments fsCatchLine "dir" treeOneFile).2
  exact h ⟨"dir/Test.cs", 1, "exception_handling", "Catching generic Exception", "medium"⟩
    (by decide) "obj" (by decide)

-- ## C6: manifest parse errors are printed, substituted and isolated

/-- A small sample manifest tree. -/
def xmlSample : XmlElem :=
  .node "Project" []
    (.cons
      (.node "ItemGroup" []
        (.cons (.node "PackageReference" [("Include", "Newtonsoft.Json"), ("Version", "13.0.1")] .nil)
          (.cons (.node "ProjectReference" [("Include", "../Core/Core.csproj")] .nil) .nil)))
      .nil)

/-- Dependency file system where one manifest fails to parse. -/
def fsDepBad : DepFS :=
  ⟨fun p => if p = "A/B.csproj" then .error "boom" else .ok xmlSample⟩

/-- Dependency file system where every manifest parses. -/
def fsDepGood : DepFS := ⟨fun _ => .ok xmlSample⟩

/-- C6: a manifest that fails to parse yields a printed per-file error
(never an exception) and empty package/project reference lists, and the
per-manifest results of every other path are unchanged relative to any
run in which the parse error did not occur. -/
theorem manifest_parse_error_isolated (fs fs2 : DepFS) (bad err : String)
    (hbad : fs.parseXml bad = .error err)
    (hagree : ∀ q, q ≠ bad → fs.parseXml q = fs2.parseXml q) :
    extract_package_references fs bad = ([], [s!"Error parsing {bad}: {err}"]) ∧
    extract_project_references fs bad = ([], [s!"Error parsing {bad}: {err}"]) ∧
    ∀ q, q ≠ bad → projectEntry fs q = projectEntry fs2 q := by
  refine ⟨?_, ?_, ?_⟩
  · unfold extract_package_references
    rw [hbad]
  · unfold extract_project_references
    rw [hbad]
  · intro q hq
    unfold projectEntry extract_package_references extract_project_references
    rw [hagree q hq]

/-- Witness for C6: a concrete bad manifest is reported with empty lists
while a sibling manifest's results match those of an error-free run. -/
theorem manifest_parse_error_isolated_witness :
    extract_package_references fsDepBad "A/B.csproj" = ([], ["Error parsing A/B.csproj: boom"]) ∧
    projectEntry fsDepBad "C/D.csproj" = projectEntry fsDepGood "C/D.csproj" := by
  have h := manifest_parse_error_isolated fsDepBad fsDepGood "A/B.csproj" "boom"
    (by simp [fsDepBad]) (fun q hq => by simp [fsDepBad, fsDepGood, hq])
  exact ⟨h.1.trans (by decide), h.2.2 "C/D.csproj" (by decide)⟩

-- ## C7: project-name derivation

/-- A successful `isPrefixOf` yields an explicit decomposition. -/
theorem append_of_isPrefixOf : ∀ p l : List Char, p.isPrefixOf l = true → ∃ w, l = p ++ w := by
  intro p
  induction p with
  | nil => intro l _; exact ⟨l, rfl⟩
  | cons a as ih =>
      intro l h
      cases l with
      | nil => simp [List.isPrefixOf] at h
      | cons b bs =>
          have h2 : a = b ∧ as.isPrefixOf bs = true := by
            simpa [List.isPrefixOf] using h
          obtain ⟨w, hw⟩ := ih bs h2.2
          exact ⟨w, by rw [h2.1, hw]; rfl⟩

/-- `replace('.csproj', '')` removes exactly the final `.csproj` when the
stem contains no `.csproj` occurrence of its own. -/
theorem stripCsproj_append_of_no_occurrence :
    ∀ N : List Char, substrOf csprojChars N = false →
      stripCsproj (N ++ csprojChars) = N := by
  intro N
  induction N with
  | nil => intro _; rfl
  | cons c t ih =>
      intro h
      rw [substrOf] at h
      have hsplit : csprojChars.isPrefixOf (c :: t) = false ∧ substrOf csprojChars t = false := by
        constructor
        · cases hb : csprojChars.isPrefixOf (c :: t)
          · rfl
          · rw [hb] at h
            simp at h
        · cases hb : substrOf csprojChars t
          · rfl
          · rw [hb] at h
            simp at h
      have hnp : csprojChars.isPrefixOf (c :: (t ++ csprojChars)) = false := by
        cases hb : csprojChars.isPrefixOf (c :: (t ++ csprojChars))
        · rfl
        · exfalso
          obtain ⟨w, hw⟩ := append_of_isPrefixOf _ _ hb
          have hx : (c :: t) ++ csprojChars = csprojChars ++ w := by
            rw [List.cons_append]
            exact hw
          obtain ⟨n, hn⟩ : ∃ n, (c :: t).length = n := ⟨_, rfl⟩
          have h7 : csprojChars.length = 7 := rfl
          have htake2 : (csprojChars ++ w).take 7 = csprojChars := by
            rw [← h7]
            exact List.take_left csprojChars w
          by_cases hl : 7 ≤ n
          · have htake1 : ((c :: t) ++ csprojChars).take 7 = (c :: t).take 7 :=
              List.take_append_of_le_length (by rw [hn]; exact hl)
            have hpc : (c :: t).take 7 = csprojChars := by
              rw [← htake1, hx, htake2]
            have hdec : c :: t = csprojChars ++ (c :: t).drop 7 := by
              conv_lhs => rw [← List.take_append_drop 7 (c :: t)]
              rw [hpc]
            have hsub : substrOf csprojChars (c :: t) = true := by
              rw [hdec]
              exact substrOf_of_decomp csprojChars [] _
            rw [substrOf] at hsub
            rw [hsub] at h
            exact absurd h (by decide)
          · have hn1 : 1 ≤ n := by rw [← hn]; simp
            have h1 : ((c :: t) ++ csprojChars).take n = c :: t := List.take_left' hn
            have h2 : (csprojChars ++ w).take n = csprojChars.take n :=
              List.take_append_of_le_length (by omega)
            have hct : c :: t = csprojChars.take n := by
              rw [← h1, hx, h2]
            have h3 : ((c :: t) ++ csprojChars).take 7 =
                (c :: t) ++ csprojChars.take (7 - n) := by
              rw [List.take_append_eq_append_take]
              congr 1
              · exact List.take_of_length_le (by omega)
              · rw [hn]
            have hpat : csprojChars = (c :: t) ++ csprojChars.take (7 - n) := by
              have e1 : ((c :: t) ++ csprojChars).take 7 = (csprojChars ++ w).take 7 := by
                rw [hx]
              rw [h3, htake2] at e1
              exact e1.symm
            rw [hct] at hpat
            have key : ∀ m, m < 7 → 1 ≤ m →
                ¬(csprojChars = csprojChars.take m ++ csprojChars.take (7 - m)) := by decide
            exact key n (by omega) hn1 hpat
      have heqn : stripCsproj (c :: (t ++ csprojChars)) =
          c :: stripCsproj (t ++ csprojChars) := by
        rw [stripCsproj.eq_def]
        split
        · rename_i rest hmatch
          exfalso
          rw [hmatch] at hnp
          simp [csprojChars, List.isPrefixOf] at hnp
        · rename_i c2 rest2 hno heq
          injection heq with ha hb
          subst ha
          subst hb
          rfl
        · simp_all
      rw [List.cons_append, heqn, ih hsplit.2]

/-- Basename of a path built from a directory part, a separator and a
separator-free file name. -/
theorem basenameL_append_slash (A M : List Char) (h : ∀ c ∈ M, c ≠ '/') :
    basenameL (A ++ '/' :: M) = M := by
  unfold basenameL
  have hrev : (A ++ '/' :: M).reverse = M.reverse ++ '/' :: A.reverse := by
    rw [show A ++ '/' :: M = (A ++ ['/']) ++ M by simp]
    rw [List.reverse_append, List.reverse_append]
    simp
  rw [hrev, takeWhile_append_eq]
  have hall : M.reverse.all (fun x => x != '/') = true := by
    rw [List.all_eq_true]
    intro x hx
    simpa using h x (List.mem_reverse.mp hx)
  rw [if_pos hall]
  rw [show List.takeWhile (fun x => x != '/') ('/' :: A.reverse) = [] from rfl]
  rw [List.append_nil, List.reverse_reverse]

/-- Counterexample to C7 as stated: a stem containing `.csproj` as an
inner substring loses that inner occurrence too, so the produced name is
not the basename minus its extension. -/
theorem get_project_name_inner_occurrence :
    get_project_name "dir/Foo.csprojBar.csproj" = "FooBar" ∧
    get_project_name "dir/Foo.csprojBar.csproj" ≠ "Foo.csprojBar" := by
  constructor
  · decide
  · decide

/-- C7 (amended): for a manifest or reference path `d/name.csproj` whose
separator-free stem contains no `.csproj` substring, the produced project
name (used both by `get_project_name` and, through the same computation,
by `extract_project_references`) is exactly the stem. -/
theorem get_project_name_strips_csproj (d name : String)
    (hns : ∀ c ∈ name.toList, c ≠ '/')
    (hno : substrOf csprojChars name.toList = false) :
    get_project_name (d ++ "/" ++ name ++ ".csproj") = name := by
  unfold get_project_name
  have htl : (d ++ "/" ++ name ++ ".csproj").toList =
      d.toList ++ '/' :: (name.toList ++ csprojChars) := by
    have h0 : (d ++ "/" ++ name ++ ".csproj").toList =
        ((d.toList ++ ['/']) ++ name.toList) ++ csprojChars := rfl
    rw [h0]
    simp [List.append_assoc]
  rw [htl, basenameL_append_slash d.toList (name.toList ++ csprojChars) ?hm]
  case hm =>
    intro c hc
    rcases List.mem_append.mp hc with h1 | h2
    · exact hns c h1
    · fin_cases h2 <;> decide
  rw [stripCsproj_append_of_no_occurrence name.toList hno]
  rfl

/-- Witness for the amended C7 at a concrete path. -/
theorem get_project_name_strips_csproj_witness :
    get_project_name ("src" ++ "/" ++ "MyProj" ++ ".csproj") = "MyProj" :=
  get_project_name_strips_csproj "src" "MyProj" (by decide) (by decide)
